import Mathlib

/-!
Shallow embedding of the `sem` indexing/retrieval pipeline
(`src/semvec/core/services/chunk_codebase.py` and
`src/semvec/core/services/retrieval_system.py`), together with
verification of the behavioural properties stated for it.

Python machine-level details are modelled as follows: strings are Lean
`String`s (Python `len` counts code points, as does `String.length`);
Python `//` on non-negative ints is `Nat` division; Python dicts are
insertion-ordered association lists; floating point similarity scores are
modelled over `ℚ`; the embedding model and the FAISS search routine are
external collaborators and enter as explicit function arguments.
-/

namespace Semvec

/-! ### chunk_codebase.py -/

/-- Characters removed by `re.sub(r"[\x00-\x1F\x7F-\x9F]", "", text)`. -/
def isControlChar (c : Char) : Bool :=
  c.toNat ≤ 0x1F || (0x7F ≤ c.toNat && c.toNat ≤ 0x9F)

/-- Python `\\s` (whitespace) on `str`: ASCII whitespace, the C1 separators,
and the Unicode space characters. -/
def isPyWhitespace (c : Char) : Bool :=
  (0x09 ≤ c.toNat && c.toNat ≤ 0x0D) || (0x1C ≤ c.toNat && c.toNat ≤ 0x1F) ||
  c.toNat = 0x20 || c.toNat = 0x85 || c.toNat = 0xA0 || c.toNat = 0x1680 ||
  (0x2000 ≤ c.toNat && c.toNat ≤ 0x200A) || c.toNat = 0x2028 ||
  c.toNat = 0x2029 || c.toNat = 0x202F || c.toNat = 0x205F || c.toNat = 0x3000

/-- `re.sub(r"\s+", " ", text)`: collapse each maximal whitespace run to a
single space. -/
def collapseWhitespace : List Char → List Char
  | [] => []
  | [c] => if isPyWhitespace c then [' '] else [c]
  | c :: d :: rest =>
    if isPyWhitespace c then
      if isPyWhitespace d then collapseWhitespace (d :: rest)
      else ' ' :: collapseWhitespace (d :: rest)
    else c :: collapseWhitespace (d :: rest)

/-- Python `str.strip()`: drop whitespace from both ends. -/
def stripEnds (l : List Char) : List Char :=
  ((l.dropWhile isPyWhitespace).reverse.dropWhile isPyWhitespace).reverse

/-- `clean_text` from `chunk_codebase.py`: remove non-printable characters,
normalise whitespace runs to a single space, strip. -/
def clean_text (s : String) : String :=
  String.mk (stripEnds (collapseWhitespace (s.data.filter (fun c => !isControlChar c))))

/-- Chunk metadata dict (`chunk["metadata"]`). -/
structure ChunkMeta where
  file : String
  start_line : Nat
  end_line : Nat
  type : String
  name : String
deriving DecidableEq, Repr

/-- A chunk as built by `create_chunk`: cleaned `(line number, text)` pairs
plus metadata. -/
structure Chunk where
  content : List (Nat × String)
  metadata : ChunkMeta
deriving DecidableEq, Repr

/-- Python `str.split(sep)` for a one-character separator (auxiliary,
structural recursion). -/
def splitOnCharAux (sep : Char) : List Char → List Char → List String
  | [], acc => [String.mk acc.reverse]
  | c :: rest, acc =>
    if c = sep then String.mk acc.reverse :: splitOnCharAux sep rest []
    else splitOnCharAux sep rest (c :: acc)

/-- Python `str.split(sep)` for a one-character separator. -/
def splitOnChar (sep : Char) (s : String) : List String := splitOnCharAux sep s.data []

/-- Python `content.split("\n")`. -/
def splitLines (s : String) : List String := splitOnChar '\n' s

/-- Python `file_path.split('/')[-1]`. -/
def basename (p : String) : String := (splitOnChar '/' p).getLastD ""

/-- `create_chunk` from `chunk_codebase.py`: clean each line, keep the
non-empty ones with their original line numbers, and emit a chunk only when
some cleaned line is non-empty (`if cleaned_content:`). -/
def create_chunk (file_path : String) (start_line end_line : Nat)
    (content : List String) (chunk_type name : String) : Option Chunk :=
  let cleaned_content :=
    (List.enumFrom start_line content).filterMap
      (fun p => let c := clean_text p.2; if c = "" then none else some (p.1, c))
  if cleaned_content = [] then none
  else some { content := cleaned_content
              metadata := { file := file_path, start_line := start_line,
                            end_line := end_line, type := chunk_type, name := name } }

/-- Mutable state of the chunking loop in `process_item`. -/
structure ChunkState where
  chunks : List Chunk
  current_chunk : List String
  current_size : Nat
  start_line : Nat
deriving Repr

/-- One iteration of the `for i, line in enumerate(lines, start=1)` loop of
`process_item`: possibly flush the running chunk, then append the line. -/
def processLine (file_path : String) (max_chunk_size : Nat)
    (st : ChunkState) (i : Nat) (line : String) : ChunkState :=
  let st :=
    if st.current_size + line.length > max_chunk_size && !st.current_chunk.isEmpty then
      { chunks := st.chunks ++
          (create_chunk file_path st.start_line (i - 1) st.current_chunk "partial"
            (basename file_path ++ "_" ++ toString st.start_line)).toList
        current_chunk := []
        current_size := 0
        start_line := i }
    else st
  { st with current_chunk := st.current_chunk ++ [line],
            current_size := st.current_size + line.length }

/-- `process_item` from `chunk_codebase.py`: whole-file chunk when the total
character count is at or below the threshold, otherwise a size-bounded
splitting loop followed by a final flush. -/
def process_item (max_chunk_size whole_file_threshold : Nat)
    (content file_path : String) : List Chunk :=
  let lines := splitLines content
  let total_chars := (lines.map String.length).sum
  if total_chars ≤ whole_file_threshold then
    (create_chunk file_path 1 lines.length lines "whole_file" (basename file_path)).toList
  else
    let final := (List.enumFrom 1 lines).foldl
      (fun st p => processLine file_path max_chunk_size st p.1 p.2)
      { chunks := [], current_chunk := [], current_size := 0, start_line := 1 }
    final.chunks ++
      (if !final.current_chunk.isEmpty then
        (create_chunk file_path final.start_line lines.length final.current_chunk "partial"
          (basename file_path ++ "_" ++ toString final.start_line)).toList
       else [])

/-- `chunk_parsed_code`: process each file of the codebase dict in order
(Python dicts preserve insertion order, modelled as an association list). -/
def chunk_parsed_code (codebase_dict : List (String × String))
    (max_chunk_size whole_file_threshold : Nat) : List Chunk :=
  codebase_dict.foldl
    (fun acc p => acc ++ process_item max_chunk_size whole_file_threshold p.2 p.1) []

end Semvec

namespace Semvec

/-! ### retrieval_system.py -/

/-- Python `str()` of a `(line_number, text)` tuple, as produced inside the
f-string of `_build_index` by `' '.join(str(line) for line in chunk['content'])`. -/
def pyTupleStr (p : Nat × String) : String :=
  "(" ++ toString p.1 ++ ", '" ++ p.2 ++ "')"

/-- The text embedded for one chunk in `_build_index`:
`f"File: {chunk['metadata']['file']}\n\n{' '.join(str(line) for line in chunk['content'])}"`. -/
def chunkText (c : Chunk) : String :=
  "File: " ++ c.metadata.file ++ "\n\n" ++ String.intercalate " " (c.content.map pyTupleStr)

/-- `range(0, len(texts), batch_size)` slicing: split a list into consecutive
batches of `n` elements (auxiliary, structural recursion; the counter is the
remaining capacity of the current batch). -/
def batchedAux (n : Nat) : List β → List β → Nat → List (List β)
  | [], acc, _ => if acc.isEmpty then [] else [acc.reverse]
  | x :: xs, acc, 0 => acc.reverse :: batchedAux n xs [x] (n - 1)
  | x :: xs, acc, k + 1 => batchedAux n xs (x :: acc) k

/-- Split a list into consecutive batches of `n` elements. -/
def batched (n : Nat) (l : List β) : List (List β) := batchedAux n l [] n

/-- The embedding loop of `_build_index`: process batches of 32 texts; a
batch whose tokenization raises is skipped whole (`continue`), and within a
batch each sentence whose encoding raises is skipped individually. The
tokenizer and the sentence-transformer model are external collaborators,
passed in as `tokenizeOk` (does tokenization succeed on this batch?) and
`encode` (`some v` on success, `none` when encoding raises). -/
def buildEmbeddings (tokenizeOk : List String → Bool) (encode : String → Option β)
    (texts : List String) : List β :=
  (batched 32 texts).foldl
    (fun embeddings batch =>
      if tokenizeOk batch then embeddings ++ batch.filterMap encode
      else embeddings) []

/-- The FAISS backing structure built by `_build_index`: either an exact
`IndexFlatL2` or a clustered `IndexIVFFlat`; both hold the added vectors in
insertion order. -/
inductive FaissIndex (β : Type) where
  | flatL2 (vectors : List β)
  | ivfFlat (nClusters : Nat) (vectors : List β)
deriving DecidableEq, Repr

/-- The vectors stored in the backing structure, in insertion order. -/
def FaissIndex.storedVectors : FaissIndex β → List β
  | .flatL2 v => v
  | .ivfFlat _ v => v

/-- The `ValueError` raised by `_build_index` when no embeddings were produced. -/
inductive BuildError where
  | noValidEmbeddings
deriving DecidableEq, Repr

/-- `_build_index`: embed all chunk texts (skipping failures), fail if no
embedding was produced, otherwise pick the backing structure:
`n_clusters = min(100, len(embeddings) // 2)`; an `IndexFlatL2` when
`len(embeddings) < n_clusters`, else a trained `IndexIVFFlat` with
`n_clusters` clusters. -/
def build_index (tokenizeOk : List String → Bool) (encode : String → Option β)
    (chunks : List Chunk) : Except BuildError (FaissIndex β) :=
  let texts := chunks.map chunkText
  let embeddings := buildEmbeddings tokenizeOk encode texts
  if embeddings.isEmpty then .error .noValidEmbeddings
  else
    let n_clusters := min 100 (embeddings.length / 2)
    if embeddings.length < n_clusters then .ok (.flatL2 embeddings)
    else .ok (.ivfFlat n_clusters embeddings)

/-- The mutable state of a `FAISSRetrievalSystem` instance: `self.index` and
`self.chunks` (absent until set — `hasattr` checks), and
`self.current_identifier`. -/
structure RetrievalState (β : Type) where
  index : Option (FaissIndex β)
  chunks : Option (List Chunk)
  current_identifier : Option String

/-- `FAISSRetrievalSystem.__init__(chunks)` with a chunk list: store the
chunks and build the index; `current_identifier` starts as `None`. -/
def initWithChunks (tokenizeOk : List String → Bool) (encode : String → Option β)
    (chunks : List Chunk) : Except BuildError (RetrievalState β) :=
  match build_index tokenizeOk encode chunks with
  | .error e => .error e
  | .ok ix => .ok { index := some ix, chunks := some chunks, current_identifier := none }

/-- The on-disk index directory `~/.sem/index`, holding two artifacts per
identifier: `{identifier}.index` (`faiss.write_index`) and
`{identifier}.npy` (`np.save` of the chunk list). Serialization by the
external faiss/numpy libraries is modelled as exact. -/
structure IndexStore (β : Type) where
  indexFiles : String → Option (FaissIndex β)
  chunkFiles : String → Option (List Chunk)

/-- The exception re-raised by `save_index` (e.g. `AttributeError` when
`self.index` or `self.chunks` was never set). -/
inductive SaveError where
  | missingAttr
deriving DecidableEq, Repr

/-- `save_index`: write both artifacts under `identifier` and record it as
`self.current_identifier`. -/
def save_index (st : RetrievalState β) (store : IndexStore β) (identifier : String) :
    Except SaveError (IndexStore β × RetrievalState β) :=
  match st.index, st.chunks with
  | some ix, some cs =>
      .ok ({ indexFiles := fun id => if id = identifier then some ix else store.indexFiles id,
             chunkFiles := fun id => if id = identifier then some cs else store.chunkFiles id },
           { st with current_identifier := some identifier })
  | _, _ => .error .missingAttr

/-- The `FileNotFoundError` raised by `load_index`. -/
inductive LoadError where
  | fileNotFound (identifier : String)
deriving DecidableEq, Repr

/-- `load_index`: if either artifact is absent, raise `FileNotFoundError`;
otherwise read both and set `self.current_identifier`. -/
def load_index (store : IndexStore β) (identifier : String) :
    Except LoadError (RetrievalState β) :=
  match store.indexFiles identifier, store.chunkFiles identifier with
  | some ix, some cs =>
      .ok { index := some ix, chunks := some cs, current_identifier := some identifier }
  | _, _ => .error (.fileNotFound identifier)

/-- `ensure_index_loaded`: reload from disk unless this identifier is already
loaded with both attributes present. -/
def ensure_index_loaded (st : RetrievalState β) (store : IndexStore β) (identifier : String) :
    Except LoadError (RetrievalState β) :=
  if st.current_identifier ≠ some identifier ∨ st.index.isNone ∨ st.chunks.isNone then
    load_index store identifier
  else .ok st

/-- `models/code_location.py`. -/
structure CodeLocation where
  file_path : String
  start_line : Nat
  end_line : Nat
  score : ℚ
deriving DecidableEq, Repr

/-- The `ValueError`s raised by `retrieve` before the search phase. -/
inductive RetrieveError where
  | noIndexLoaded
  | indexNotFound (identifier : String)
deriving DecidableEq, Repr

/-- One value of the `seen_files` dict in `retrieve`. -/
structure FileEntry where
  start_line : Nat
  end_line : Nat
  score : ℚ
deriving DecidableEq, Repr

/-- Placeholder standing for the `IndexError` numpy would raise on an
out-of-range chunk access (cannot occur for indices faiss returns). -/
def defaultChunk : Chunk :=
  { content := [], metadata := { file := "", start_line := 0, end_line := 0, type := "", name := "" } }

/-- `self.chunks[idx]` with Python/numpy integer indexing: a negative index
counts from the end (faiss pads missing neighbours with `-1`). -/
def chunkAt (chunks : List Chunk) (idx : Int) : Chunk :=
  let i : Int := if idx < 0 then (chunks.length : Int) + idx else idx
  if h : 0 ≤ i ∧ i.toNat < chunks.length then chunks.get ⟨i.toNat, h.2⟩ else defaultChunk

/-- The `seen_files` update for one surviving neighbour hit: widen the line
range and keep the best score if the file was seen, else append a fresh
entry (Python dicts preserve insertion order; modelled as an association
list). -/
def mergeHit (seen : List (String × FileEntry)) (file_path : String)
    (start_line end_line : Nat) (similarity : ℚ) : List (String × FileEntry) :=
  if (seen.find? (fun p => p.1 == file_path)).isSome then
    seen.map (fun p =>
      if p.1 == file_path then
        (p.1, { start_line := min p.2.start_line start_line,
                end_line := max p.2.end_line end_line,
                score := max p.2.score similarity })
      else p)
  else seen ++ [(file_path, { start_line := start_line, end_line := end_line, score := similarity })]

/-- The `for i, idx in enumerate(indices[0])` loop of `retrieve`: hits are
`(distance, index)` pairs in the order returned by the search; a hit whose
similarity `1/(1+d)` is below the threshold is skipped; otherwise it is
merged into `seen_files`, and the loop breaks once `len(seen_files) == top_k`. -/
def mergeLoop (chunks : List Chunk) (similarity_threshold : ℚ) (top_k : Nat) :
    List (ℚ × Int) → List (String × FileEntry) → List (String × FileEntry)
  | [], seen => seen
  | (distance, idx) :: rest, seen =>
    let similarity := 1 / (1 + distance)
    if similarity < similarity_threshold then
      mergeLoop chunks similarity_threshold top_k rest seen
    else
      let c := chunkAt chunks idx
      let seen' := mergeHit seen c.metadata.file c.metadata.start_line c.metadata.end_line similarity
      if seen'.length = top_k then seen'
      else mergeLoop chunks similarity_threshold top_k rest seen'

/-- The result-assembly phase of `retrieve`: run the merge loop on the
(distance, index) pairs and turn each `seen_files` entry into a
`CodeLocation`. -/
def mergeResults (chunks : List Chunk) (hits : List (ℚ × Int))
    (top_k : Nat) (similarity_threshold : ℚ) : List CodeLocation :=
  (mergeLoop chunks similarity_threshold top_k hits []).map (fun p =>
    { file_path := p.1, start_line := p.2.start_line,
      end_line := p.2.end_line, score := p.2.score })

/-- `retrieve`: raise if no identifier is set; re-raise a missing index as a
distinct `ValueError`; then run the search phase inside `try/except`. The
query encoding and `self.index.search` are external (the model and faiss),
so the search phase's outcome enters as the `search` argument: `.ok
(distances[0], indices[0])`, or `.error msg` when anything in the `try`
block raises — in which case the code logs and returns `[]`. -/
def retrieve (st : RetrievalState β) (store : IndexStore β)
    (search : Except String (List ℚ × List Int))
    (top_k : Nat) (similarity_threshold : ℚ) :
    Except RetrieveError (List CodeLocation) :=
  match st.current_identifier with
  | none => .error .noIndexLoaded
  | some identifier =>
    match ensure_index_loaded st store identifier with
    | .error _ => .error (.indexNotFound identifier)
    | .ok st' =>
      match search with
      | .error _ => .ok []
      | .ok (distances, indices) =>
          .ok (mergeResults (st'.chunks.getD []) (distances.zip indices)
                top_k similarity_threshold)

/-! ### Helper notions used to state the verified properties -/

/-- `coversFrom s ranges n`: the closed intervals in `ranges`, in order,
tile `[s, n]` exactly — each starts where the previous ended plus one, and
the last ends at `n` (no gaps, no overlaps, full coverage). -/
def coversFrom : Nat → List (Nat × Nat) → Nat → Bool
  | s, [], n => s == n + 1
  | s, (a, b) :: rest, n => a == s && decide (s ≤ b) && coversFrom (b + 1) rest n

/-- The line ranges of a list of chunks. -/
def rangesOf (chunks : List Chunk) : List (Nat × Nat) :=
  chunks.map (fun c => (c.metadata.start_line, c.metadata.end_line))

/-- The original lines numbered `s..e` (1-based, inclusive) of a file. -/
def sliceLines (lines : List String) (s e : Nat) : List String :=
  (lines.take e).drop (s - 1)

/-- Accumulated character count of the original lines `s..e`. -/
def sliceSize (lines : List String) (s e : Nat) : Nat :=
  ((sliceLines lines s e).map String.length).sum

/-- The file a hit resolves to via `self.chunks[idx]`. -/
def hitFile (chunks : List Chunk) (h : ℚ × Int) : String :=
  (chunkAt chunks h.2).metadata.file

/-- The start line a hit resolves to. -/
def hitStart (chunks : List Chunk) (h : ℚ × Int) : Nat :=
  (chunkAt chunks h.2).metadata.start_line

/-- The end line a hit resolves to. -/
def hitEnd (chunks : List Chunk) (h : ℚ × Int) : Nat :=
  (chunkAt chunks h.2).metadata.end_line

/-- The similarity score of a hit. -/
def hitSim (h : ℚ × Int) : ℚ := 1 / (1 + h.1)

/-- The hits that the merge loop actually processes (survive the threshold
and are reached before the `top_k` break), in order. -/
def processedHits (chunks : List Chunk) (similarity_threshold : ℚ) (top_k : Nat) :
    List (ℚ × Int) → List (String × FileEntry) → List (ℚ × Int)
  | [], _ => []
  | (distance, idx) :: rest, seen =>
    let similarity := 1 / (1 + distance)
    if similarity < similarity_threshold then
      processedHits chunks similarity_threshold top_k rest seen
    else
      let c := chunkAt chunks idx
      let seen' := mergeHit seen c.metadata.file c.metadata.start_line c.metadata.end_line similarity
      (distance, idx) ::
        (if seen'.length = top_k then []
         else processedHits chunks similarity_threshold top_k rest seen')

/-- The `seen_files` update expressed on one hit. -/
def mergeStep (chunks : List Chunk) (seen : List (String × FileEntry)) (h : ℚ × Int) :
    List (String × FileEntry) :=
  mergeHit seen (hitFile chunks h) (hitStart chunks h) (hitEnd chunks h) (hitSim h)

/-- Dictionary lookup in the `seen_files` association list. -/
def lookupEntry (seen : List (String × FileEntry)) (file_path : String) : Option FileEntry :=
  (seen.find? (fun p => p.1 == file_path)).map Prod.snd

/-- Folding a file's hits into an optional running entry exactly as the
`seen_files` merge does: the first hit creates the entry, later hits take
`min` of start lines, `max` of end lines, `max` of scores. -/
def entryFor (chunks : List Chunk) : Option FileEntry → List (ℚ × Int) → Option FileEntry
  | acc, [] => acc
  | none, h :: hs =>
    entryFor chunks (some { start_line := hitStart chunks h, end_line := hitEnd chunks h,
                            score := hitSim h }) hs
  | some e, h :: hs =>
    entryFor chunks (some { start_line := min e.start_line (hitStart chunks h),
                            end_line := max e.end_line (hitEnd chunks h),
                            score := max e.score (hitSim h) }) hs

/-- One `seen_files` update applied to an optional existing entry: the first
hit for a file creates its entry, later hits widen the range and keep the
best score. -/
def mergeOne : Option FileEntry → Nat → Nat → ℚ → FileEntry
  | none, s, e, sc => { start_line := s, end_line := e, score := sc }
  | some e0, s, e, sc =>
    { start_line := min e0.start_line s, end_line := max e0.end_line e,
      score := max e0.score sc }

/-- The processed surviving hits of one file: the hits the merge loop
consumed (above threshold, before the `top_k` break) that resolve to the
given file path. -/
def fileHits (chunks : List Chunk) (similarity_threshold : ℚ) (top_k : Nat)
    (hits : List (ℚ × Int)) (file_path : String) : List (ℚ × Int) :=
  (processedHits chunks similarity_threshold top_k hits []).filter
    (fun h => hitFile chunks h == file_path)

/-! ### Concrete data used to evaluate the embedded code -/

/-- A concrete whole-file chunk of `a.py`. -/
def cDemoA : Chunk :=
  { content := [(1, "alpha")]
    metadata := { file := "a.py", start_line := 1, end_line := 1,
                  type := "whole_file", name := "a.py" } }

/-- A concrete whole-file chunk of `b.py`. -/
def cDemoB : Chunk :=
  { content := [(1, "beta")]
    metadata := { file := "b.py", start_line := 1, end_line := 1,
                  type := "whole_file", name := "b.py" } }

/-- An embedding model that raises on the text of `cDemoA` and embeds every
other text to the vector `7`. -/
def failFirstEncode : String → Option Nat :=
  fun t => if t = chunkText cDemoA then none else some 7

/-- An embedding model that embeds every text to the vector `7`. -/
def demoEncode : String → Option Nat := fun _ => some 7

/-- An empty on-disk index directory. -/
def demoStore0 : IndexStore Nat :=
  { indexFiles := fun _ => none, chunkFiles := fun _ => none }

/-- The state of a freshly built, unsaved retrieval system over `[cDemoA]`
(one embedding, so `n_clusters = min 100 (1 / 2) = 0` and the IVF branch is
taken; `current_identifier` is still `None`). -/
def stBuiltDemo : RetrievalState Nat :=
  { index := some (.ivfFlat 0 [7]), chunks := some [cDemoA], current_identifier := none }

/-- `demoStore0` after saving `stBuiltDemo` under `"repo"`. -/
def demoStore1 : IndexStore Nat :=
  { indexFiles := fun id => if id = "repo" then some (.ivfFlat 0 [7]) else none
    chunkFiles := fun id => if id = "repo" then some [cDemoA] else none }

/-- `stBuiltDemo` after saving under `"repo"` (also the state `load_index`
reconstructs from `demoStore1`). -/
def stSavedDemo : RetrievalState Nat :=
  { index := some (.ivfFlat 0 [7]), chunks := some [cDemoA], current_identifier := some "repo" }

/-- The second partial chunk `process_item 5 3 "aaaaaa\nbb\ncc" "f.py"` emits. -/
def cDemoPartial : Chunk :=
  { content := [(2, "bb"), (3, "cc")]
    metadata := { file := "f.py", start_line := 2, end_line := 3,
                  type := "partial", name := "f.py_2" } }

end Semvec

namespace Semvec

/-! ## Verification of the claimed properties -/

lemma ensure_loaded_noop {β : Type} (st : RetrievalState β) (store : IndexStore β)
    (identifier : String) (hid : st.current_identifier = some identifier)
    (hix : st.index.isSome) (hcs : st.chunks.isSome) :
    ensure_index_loaded st store identifier = .ok st := by
  unfold ensure_index_loaded
  rw [if_neg]
  rintro (h | h | h)
  · exact h hid
  · rw [Option.isNone_iff_eq_none] at h
    rw [h] at hix
    exact Bool.noConfusion hix
  · rw [Option.isNone_iff_eq_none] at h
    rw [h] at hcs
    exact Bool.noConfusion hcs

lemma cleaned_ne_nil (content : List String) (k : Nat)
    (h : ∃ l ∈ content, clean_text l ≠ "") :
    (List.enumFrom k content).filterMap
      (fun p => let c := clean_text p.2; if c = "" then none else some (p.1, c)) ≠ [] := by
  induction content generalizing k with
  | nil => simp at h
  | cons l rest ih =>
    rw [List.enumFrom_cons, List.filterMap_cons]
    by_cases hl : clean_text l = ""
    · simp only [hl, if_pos rfl]
      refine ih (k + 1) ?_
      rcases h with ⟨x, hx, hcx⟩
      rcases List.mem_cons.mp hx with h1 | h1
      · exact absurd (h1 ▸ hl) hcx
      · exact ⟨x, h1, hcx⟩
    · simp only [if_neg hl]
      exact List.cons_ne_nil _ _

lemma create_chunk_eq_some (file_path : String) (s e : Nat) (content : List String)
    (t nm : String) (h : ∃ l ∈ content, clean_text l ≠ "") :
    ∃ c, create_chunk file_path s e content t nm = some c ∧
      c.metadata = ⟨file_path, s, e, t, nm⟩ := by
  unfold create_chunk
  rw [if_neg (cleaned_ne_nil content s h)]
  exact ⟨_, rfl, rfl⟩

lemma create_chunk_metadata (file_path : String) (s e : Nat) (content : List String)
    (t nm : String) (c : Chunk) (h : create_chunk file_path s e content t nm = some c) :
    c.metadata = ⟨file_path, s, e, t, nm⟩ := by
  simp only [create_chunk] at h
  split at h
  · exact Option.noConfusion h
  · injection h with h2
    exact h2 ▸ rfl

lemma splitOnCharAux_ne_nil (sep : Char) (l acc : List Char) :
    splitOnCharAux sep l acc ≠ [] := by
  induction l generalizing acc with
  | nil => exact List.cons_ne_nil _ _
  | cons c rest ih =>
    unfold splitOnCharAux
    by_cases hc : c = sep
    · rw [if_pos hc]
      exact List.cons_ne_nil _ _
    · rw [if_neg hc]
      exact ih _

lemma splitLines_ne_nil (s : String) : splitLines s ≠ [] :=
  splitOnCharAux_ne_nil _ _ _

/-- C6: a file whose total character count across lines is at most the
whole-file threshold and with at least one line that is non-empty after
cleaning yields exactly one chunk, of type `whole_file`, spanning lines
`1..N` and named by the file's basename. -/
theorem process_item_whole_file (mcs thr : Nat) (content file_path : String)
    (htotal : ((splitLines content).map String.length).sum ≤ thr)
    (hne : ∃ l ∈ splitLines content, clean_text l ≠ "") :
    ∃ c, process_item mcs thr content file_path = [c] ∧
      c.metadata = ⟨file_path, 1, (splitLines content).length, "whole_file",
                    basename file_path⟩ := by
  obtain ⟨c, hc, hm⟩ := create_chunk_eq_some file_path 1 (splitLines content).length
    (splitLines content) "whole_file" (basename file_path) hne
  refine ⟨c, ?_, hm⟩
  unfold process_item
  rw [if_pos htotal, hc]
  rfl

/-- C6 witness: a two-line file below the threshold. -/
theorem process_item_whole_file_witness :
    ∃ c, process_item 4000 4000 "ab\ncd" "a.py" = [c] ∧
      c.metadata = ⟨"a.py", 1, (splitLines "ab\ncd").length, "whole_file",
                    basename "a.py"⟩ :=
  process_item_whole_file 4000 4000 "ab\ncd" "a.py" (by decide) (by decide)

lemma processLine_flush (fp : String) (mcs : Nat) (st : ChunkState) (i : Nat) (line : String)
    (h1 : st.current_size + line.length > mcs) (h2 : st.current_chunk ≠ []) :
    processLine fp mcs st i line =
      { chunks := st.chunks ++
          (create_chunk fp st.start_line (i - 1) st.current_chunk "partial"
            (basename fp ++ "_" ++ toString st.start_line)).toList,
        current_chunk := [line], current_size := line.length, start_line := i } := by
  have hb : (decide (st.current_size + String.length line > mcs)
      && !st.current_chunk.isEmpty) = true := by
    simp [h1, List.isEmpty_iff, h2]
  simp only [processLine]
  rw [if_pos hb]
  simp

lemma processLine_noflush (fp : String) (mcs : Nat) (st : ChunkState) (i : Nat) (line : String)
    (h : ¬(st.current_size + line.length > mcs ∧ st.current_chunk ≠ [])) :
    processLine fp mcs st i line =
      { st with current_chunk := st.current_chunk ++ [line],
                current_size := st.current_size + line.length } := by
  have hb : (decide (st.current_size + String.length line > mcs)
      && !st.current_chunk.isEmpty) = false := by
    by_cases h1 : st.current_size + String.length line > mcs
    · have h2 : st.current_chunk = [] := by
        by_contra h2
        exact h ⟨h1, h2⟩
      simp [h2]
    · simp [h1]
  simp only [processLine]
  rw [if_neg (by intro hx; rw [hb] at hx; exact Bool.noConfusion hx)]

lemma chunkLoop_size_invariant (fp : String) (mcs : Nat) (lines : List String) :
    ∀ (rest : List String) (k : Nat) (st : ChunkState),
      lines.drop k = rest →
      1 ≤ st.start_line →
      st.start_line ≤ k + 1 →
      k ≤ lines.length →
      lines.take k = lines.take (st.start_line - 1) ++ st.current_chunk →
      st.current_size = (st.current_chunk.map String.length).sum →
      (2 ≤ st.current_chunk.length → st.current_size ≤ mcs) →
      (∀ c ∈ st.chunks, c.metadata.start_line < c.metadata.end_line →
        sliceSize lines c.metadata.start_line c.metadata.end_line ≤ mcs) →
      ∀ final, final = (List.enumFrom (k + 1) rest).foldl
          (fun st p => processLine fp mcs st p.1 p.2) st →
        1 ≤ final.start_line ∧ final.start_line ≤ lines.length + 1 ∧
        lines.take lines.length = lines.take (final.start_line - 1) ++ final.current_chunk ∧
        final.current_size = (final.current_chunk.map String.length).sum ∧
        (2 ≤ final.current_chunk.length → final.current_size ≤ mcs) ∧
        (∀ c ∈ final.chunks, c.metadata.start_line < c.metadata.end_line →
          sliceSize lines c.metadata.start_line c.metadata.end_line ≤ mcs) := by
  intro rest
  induction rest with
  | nil =>
    intro k st hdrop h1 h2 h3 htake hsize hbound hchunks final hfinal
    have hk : lines.length ≤ k := List.drop_eq_nil_iff.mp hdrop
    have hkeq : k = lines.length := le_antisymm h3 hk
    subst hkeq
    rw [List.enumFrom_nil, List.foldl_nil] at hfinal
    subst hfinal
    exact ⟨h1, h2, htake, hsize, hbound, hchunks⟩
  | cons line rest' ih =>
    intro k st hdrop h1 h2 h3 htake hsize hbound hchunks final hfinal
    have hklen : k < lines.length := by
      rcases Nat.lt_or_ge k lines.length with h | h
      · exact h
      · rw [List.drop_eq_nil_iff.mpr h] at hdrop
        exact absurd hdrop (by simp)
    have hgetk : lines[k]? = some line := by
      have h0 : (lines.drop k)[0]? = some line := by rw [hdrop]; simp
      rw [List.getElem?_drop] at h0
      simpa using h0
    have htakek : lines.take (k + 1) = lines.take k ++ [line] := by
      rw [List.take_succ, hgetk]
      rfl
    have hdrop2 : lines.drop (k + 1) = rest' := by
      rw [← List.tail_drop, hdrop]
      rfl
    rw [List.enumFrom_cons, List.foldl_cons] at hfinal
    by_cases hcond : st.current_size + line.length > mcs ∧ st.current_chunk ≠ []
    · rw [processLine_flush fp mcs st (k + 1) line hcond.1 hcond.2] at hfinal
      have hslice : (lines.take k).drop (st.start_line - 1) = st.current_chunk := by
        have hlt : (lines.take (st.start_line - 1)).length = st.start_line - 1 := by
          rw [List.length_take]
          omega
        have hdl := List.drop_left (lines.take (st.start_line - 1)) st.current_chunk
        rw [hlt] at hdl
        rw [htake]
        exact hdl
      have hclen : st.current_chunk.length = k - (st.start_line - 1) := by
        have hl := congrArg List.length htake
        rw [List.length_take, List.length_append, List.length_take] at hl
        omega
      refine ih (k + 1) _ hdrop2 (by show (1 : Nat) ≤ k + 1; omega)
        (by show k + 1 ≤ k + 1 + 1; omega) (by show k + 1 ≤ lines.length; omega)
        (by show lines.take (k + 1) = lines.take (k + 1 - 1) ++ [line]; simpa using htakek)
        (by show line.length = ([line].map String.length).sum; simp)
        (by show 2 ≤ ([line] : List String).length → line.length ≤ mcs
            intro hlen; simp at hlen)
        ?_ final hfinal
      intro c hc hlt
      rcases List.mem_append.mp hc with hcm | hcm
      · exact hchunks c hcm hlt
      · rcases hcc : create_chunk fp st.start_line (k + 1 - 1) st.current_chunk "partial"
            (basename fp ++ "_" ++ toString st.start_line) with _ | c0 <;>
          rw [hcc] at hcm
        · simp at hcm
        · have hmem : c = c0 := by simpa using hcm
          subst hmem
          have hmeta := create_chunk_metadata _ _ _ _ _ _ _ hcc
          rw [hmeta] at hlt ⊢
          simp only at hlt ⊢
          have h2le : 2 ≤ st.current_chunk.length := by omega
          have hss : sliceSize lines st.start_line (k + 1 - 1) =
              (st.current_chunk.map String.length).sum := by
            unfold sliceSize sliceLines
            rw [show k + 1 - 1 = k from rfl, hslice]
          rw [hss, ← hsize]
          exact hbound h2le
    · rw [processLine_noflush fp mcs st (k + 1) line hcond] at hfinal
      refine ih (k + 1)
        { st with current_chunk := st.current_chunk ++ [line],
                  current_size := st.current_size + line.length }
        hdrop2 h1 (by show st.start_line ≤ k + 1 + 1; omega)
        (by show k + 1 ≤ lines.length; omega) ?_ ?_ ?_ hchunks final hfinal
      · show lines.take (k + 1) = lines.take (st.start_line - 1) ++ (st.current_chunk ++ [line])
        rw [htakek, htake, List.append_assoc]
      · show st.current_size + line.length = ((st.current_chunk ++ [line]).map String.length).sum
        simp [hsize]
      · show 2 ≤ (st.current_chunk ++ [line]).length → st.current_size + line.length ≤ mcs
        intro hlen
        by_cases hnil : st.current_chunk = []
        · rw [hnil] at hlen
          simp at hlen
        · have hle : ¬ st.current_size + line.length > mcs := fun hgt => hcond ⟨hgt, hnil⟩
          omega

/-- C5: for every file split by the chunker, no emitted `partial` chunk that
spans more than one line has an accumulated character count (the sum of the
raw lengths of its original lines) exceeding `max_chunk_size`; only a chunk
consisting of a single line may exceed the limit. -/
theorem partial_chunk_size_bound (max_chunk_size whole_file_threshold : Nat)
    (content file_path : String) (c : Chunk)
    (hc : c ∈ process_item max_chunk_size whole_file_threshold content file_path)
    (hp : c.metadata.type = "partial")
    (hml : c.metadata.start_line < c.metadata.end_line) :
    sliceSize (splitLines content) c.metadata.start_line c.metadata.end_line
      ≤ max_chunk_size := by
  simp only [process_item] at hc
  by_cases ht : ((splitLines content).map String.length).sum ≤ whole_file_threshold
  · rw [if_pos ht] at hc
    rcases hcc : create_chunk file_path 1 (splitLines content).length (splitLines content)
        "whole_file" (basename file_path) with _ | c0 <;> rw [hcc] at hc
    · simp at hc
    · have hceq : c = c0 := by simpa using hc
      subst hceq
      have hmeta := create_chunk_metadata _ _ _ _ _ _ _ hcc
      rw [hmeta] at hp
      simp at hp
  · rw [if_neg ht] at hc
    set F := (List.enumFrom 1 (splitLines content)).foldl
      (fun st p => processLine file_path max_chunk_size st p.1 p.2)
      { chunks := [], current_chunk := [], current_size := 0, start_line := 1 } with hF
    obtain ⟨hf1, hf2, hf3, hf4, hf5, hf6⟩ :=
      chunkLoop_size_invariant file_path max_chunk_size (splitLines content)
        (splitLines content) 0
        { chunks := [], current_chunk := [], current_size := 0, start_line := 1 }
        rfl (le_refl 1) (by show (1 : Nat) ≤ 0 + 1; omega) (Nat.zero_le _) (by simp) rfl
        (by intro h; simp at h) (by intro c hc; simp at hc) F (by rw [hF])
    rw [List.take_length] at hf3
    rcases List.mem_append.mp hc with hcm | hcm
    · exact hf6 c hcm hml
    · by_cases hce : F.current_chunk.isEmpty
      · rw [hce] at hcm
        simp at hcm
      · simp only [Bool.not_eq_true] at hce
        rw [hce] at hcm
        simp only [Bool.not_false, if_pos] at hcm
        rcases hcc : create_chunk file_path F.start_line (splitLines content).length
            F.current_chunk "partial"
            (basename file_path ++ "_" ++ toString F.start_line) with _ | c0 <;>
          rw [hcc] at hcm
        · simp at hcm
        · have hceq : c = c0 := by simpa using hcm
          subst hceq
          have hmeta := create_chunk_metadata _ _ _ _ _ _ _ hcc
          rw [hmeta] at hml ⊢
          simp only at hml ⊢
          have hslen : (List.take (F.start_line - 1) (splitLines content)).length
              = F.start_line - 1 := by
            rw [List.length_take]
            omega
          have hdl := List.drop_left (List.take (F.start_line - 1) (splitLines content))
            F.current_chunk
          rw [hslen] at hdl
          have hclen : F.current_chunk.length = (splitLines content).length - (F.start_line - 1) := by
            have hl := congrArg List.length hf3
            rw [List.length_append, List.length_take] at hl
            omega
          have hdrop3 : (splitLines content).drop (F.start_line - 1) = F.current_chunk := by
            conv_lhs => rw [hf3]
            exact hdl
          have hss : sliceSize (splitLines content) F.start_line (splitLines content).length
              = (F.current_chunk.map String.length).sum := by
            unfold sliceSize sliceLines
            rw [List.take_length, hdrop3]
          rw [hss, ← hf4]
          exact hf5 (by omega)

/-- C5 witness: the two-line partial chunk spanning lines 2-3 of a concrete
three-line file split with `max_chunk_size = 5`. -/
theorem partial_chunk_size_bound_witness :
    sliceSize (splitLines "aaaaaa\nbb\ncc") 2 3 ≤ 5 :=
  partial_chunk_size_bound 5 3 "aaaaaa\nbb\ncc" "f.py" cDemoPartial
    (by decide) rfl (by decide)

lemma coversFrom_append (rs : List (Nat × Nat)) :
    ∀ (s0 a b : Nat), coversFrom s0 rs (a - 1) = true → 1 ≤ a → a ≤ b →
      coversFrom s0 (rs ++ [(a, b)]) b = true := by
  induction rs with
  | nil =>
    intro s0 a b h h1 h2
    unfold coversFrom at h
    have hs0 : s0 = a := by
      simp only [beq_iff_eq] at h
      omega
    subst hs0
    simp [coversFrom, h2]
  | cons p rs ih =>
    intro s0 a b h h1 h2
    obtain ⟨x, y⟩ := p
    unfold coversFrom at h
    rw [List.cons_append]
    unfold coversFrom
    simp only [Bool.and_eq_true] at h ⊢
    exact ⟨h.1, ih (y + 1) a b h.2 h1 h2⟩

lemma chunkLoop_cover_invariant (fp : String) (mcs : Nat) (lines : List String)
    (hclean : ∀ l ∈ lines, clean_text l ≠ "") :
    ∀ (rest : List String) (k : Nat) (st : ChunkState),
      lines.drop k = rest →
      1 ≤ st.start_line →
      st.start_line ≤ k + 1 →
      k ≤ lines.length →
      (st.current_chunk = [] ↔ st.start_line = k + 1) →
      (∀ l ∈ st.current_chunk, clean_text l ≠ "") →
      coversFrom 1 (rangesOf st.chunks) (st.start_line - 1) = true →
      ∀ final, final = (List.enumFrom (k + 1) rest).foldl
          (fun st p => processLine fp mcs st p.1 p.2) st →
        1 ≤ final.start_line ∧ final.start_line ≤ lines.length + 1 ∧
        (final.current_chunk = [] ↔ final.start_line = lines.length + 1) ∧
        (∀ l ∈ final.current_chunk, clean_text l ≠ "") ∧
        coversFrom 1 (rangesOf final.chunks) (final.start_line - 1) = true := by
  intro rest
  induction rest with
  | nil =>
    intro k st hdrop h1 h2 h3 hiff hcl hcov final hfinal
    have hkeq : k = lines.length := le_antisymm h3 (List.drop_eq_nil_iff.mp hdrop)
    subst hkeq
    rw [List.enumFrom_nil, List.foldl_nil] at hfinal
    subst hfinal
    exact ⟨h1, h2, hiff, hcl, hcov⟩
  | cons line rest' ih =>
    intro k st hdrop h1 h2 h3 hiff hcl hcov final hfinal
    have hklen : k < lines.length := by
      rcases Nat.lt_or_ge k lines.length with h | h
      · exact h
      · rw [List.drop_eq_nil_iff.mpr h] at hdrop
        exact absurd hdrop (by simp)
    have hlinemem : line ∈ lines := by
      have hm : line ∈ lines.drop k := by
        rw [hdrop]
        exact List.mem_cons_self _ _
      exact List.drop_subset _ _ hm
    have hdrop2 : lines.drop (k + 1) = rest' := by
      rw [← List.tail_drop, hdrop]
      rfl
    rw [List.enumFrom_cons, List.foldl_cons] at hfinal
    by_cases hcond : st.current_size + line.length > mcs ∧ st.current_chunk ≠ []
    · rw [processLine_flush fp mcs st (k + 1) line hcond.1 hcond.2] at hfinal
      have hslt : st.start_line ≤ k := by
        rcases Nat.lt_or_ge st.start_line (k + 1) with h | h
        · omega
        · exact absurd (hiff.mpr (le_antisymm h2 h)) hcond.2
      obtain ⟨l0, hl0⟩ := List.exists_mem_of_ne_nil _ hcond.2
      obtain ⟨c0, hc0, hm0⟩ := create_chunk_eq_some fp st.start_line (k + 1 - 1)
        st.current_chunk "partial" (basename fp ++ "_" ++ toString st.start_line)
        ⟨l0, hl0, hcl l0 hl0⟩
      rw [hc0] at hfinal
      refine ih (k + 1) _ hdrop2 (by show (1 : Nat) ≤ k + 1; omega)
        (by show k + 1 ≤ k + 1 + 1; omega) (by show k + 1 ≤ lines.length; omega)
        ?_ ?_ ?_ final hfinal
      · show [line] = [] ↔ k + 1 = k + 1 + 1
        exact iff_of_false (by simp) (by omega)
      · show ∀ l ∈ [line], clean_text l ≠ ""
        intro l hl
        rw [List.mem_singleton] at hl
        exact hl ▸ hclean line hlinemem
      · show coversFrom 1 (rangesOf (st.chunks ++ [c0])) (k + 1 - 1) = true
        have hr : rangesOf (st.chunks ++ [c0]) =
            rangesOf st.chunks ++ [(st.start_line, k + 1 - 1)] := by
          unfold rangesOf
          rw [List.map_append]
          simp [hm0]
        rw [hr]
        exact coversFrom_append _ 1 st.start_line (k + 1 - 1) hcov h1 (by omega)
    · rw [processLine_noflush fp mcs st (k + 1) line hcond] at hfinal
      refine ih (k + 1)
        { st with current_chunk := st.current_chunk ++ [line],
                  current_size := st.current_size + line.length }
        hdrop2 h1 (by show st.start_line ≤ k + 1 + 1; omega)
        (by show k + 1 ≤ lines.length; omega) ?_ ?_ ?_ final hfinal
      · show st.current_chunk ++ [line] = [] ↔ st.start_line = k + 1 + 1
        exact iff_of_false (by simp) (by omega)
      · show ∀ l ∈ st.current_chunk ++ [line], clean_text l ≠ ""
        intro l hl
        rcases List.mem_append.mp hl with hl | hl
        · exact hcl l hl
        · rw [List.mem_singleton] at hl
          exact hl ▸ hclean line hlinemem
      · exact hcov

/-- C4 (amended): the union of the line ranges of the chunks emitted for a
file tiles `1..N` exactly (no gaps, no overlaps), provided either the file
fits the whole-file threshold and has at least one line that is non-empty
after cleaning, or every line of the file is non-empty after cleaning. -/
theorem chunk_coverage (max_chunk_size whole_file_threshold : Nat)
    (content file_path : String)
    (h : (((splitLines content).map String.length).sum ≤ whole_file_threshold ∧
            ∃ l ∈ splitLines content, clean_text l ≠ "") ∨
         (∀ l ∈ splitLines content, clean_text l ≠ "")) :
    coversFrom 1 (rangesOf (process_item max_chunk_size whole_file_threshold content file_path))
      (splitLines content).length = true := by
  have hN : 1 ≤ (splitLines content).length :=
    List.length_pos.mpr (splitLines_ne_nil content)
  simp only [process_item]
  by_cases ht : ((splitLines content).map String.length).sum ≤ whole_file_threshold
  · rw [if_pos ht]
    have hne : ∃ l ∈ splitLines content, clean_text l ≠ "" := by
      rcases h with ⟨_, hne⟩ | hall
      · exact hne
      · obtain ⟨l, hl⟩ := List.exists_mem_of_ne_nil _ (splitLines_ne_nil content)
        exact ⟨l, hl, hall l hl⟩
    obtain ⟨c, hc, hm⟩ := create_chunk_eq_some file_path 1 (splitLines content).length
      (splitLines content) "whole_file" (basename file_path) hne
    rw [hc]
    have hr : rangesOf (some c).toList = [(1, (splitLines content).length)] := by
      simp [rangesOf, hm]
    rw [hr]
    simp [coversFrom, hN]
  · rw [if_neg ht]
    have hall : ∀ l ∈ splitLines content, clean_text l ≠ "" := by
      rcases h with ⟨hth, _⟩ | hall
      · exact absurd hth ht
      · exact hall
    set F := (List.enumFrom 1 (splitLines content)).foldl
      (fun st p => processLine file_path max_chunk_size st p.1 p.2)
      { chunks := [], current_chunk := [], current_size := 0, start_line := 1 } with hF
    obtain ⟨hf1, hf2, hf3, hf4, hf5⟩ :=
      chunkLoop_cover_invariant file_path max_chunk_size (splitLines content) hall
        (splitLines content) 0
        { chunks := [], current_chunk := [], current_size := 0, start_line := 1 }
        rfl (le_refl 1) (by show (1 : Nat) ≤ 0 + 1; omega) (Nat.zero_le _)
        (by constructor <;> (intro; rfl)) (by intro l hl; simp at hl)
        (by unfold rangesOf coversFrom; simp) F (by rw [hF])
    by_cases hce : F.current_chunk.isEmpty
    · have hcur : F.current_chunk = [] := List.isEmpty_iff.mp hce
      have hs : F.start_line = (splitLines content).length + 1 := hf3.mp hcur
      have hite : (F.chunks ++
          if (!F.current_chunk.isEmpty) = true then
            (create_chunk file_path F.start_line (splitLines content).length F.current_chunk
              "partial" (basename file_path ++ "_" ++ toString F.start_line)).toList
          else []) = F.chunks := by
        rw [hce]
        simp
      rw [hite]
      have h5 := hf5
      rw [hs] at h5
      simpa using h5
    · have hcur : F.current_chunk ≠ [] := by
        intro hn
        rw [hn] at hce
        exact hce rfl
      have hsne : F.start_line ≠ (splitLines content).length + 1 := fun hh => hcur (hf3.mpr hh)
      obtain ⟨l0, hl0⟩ := List.exists_mem_of_ne_nil _ hcur
      obtain ⟨c0, hc0, hm0⟩ := create_chunk_eq_some file_path F.start_line
        (splitLines content).length F.current_chunk "partial"
        (basename file_path ++ "_" ++ toString F.start_line) ⟨l0, hl0, hf4 l0 hl0⟩
      have hcef : F.current_chunk.isEmpty = false := by
        rcases hb : F.current_chunk.isEmpty with _ | _
        · rfl
        · exact absurd hb hce
      have hite : (F.chunks ++
          if (!F.current_chunk.isEmpty) = true then
            (create_chunk file_path F.start_line (splitLines content).length F.current_chunk
              "partial" (basename file_path ++ "_" ++ toString F.start_line)).toList
          else []) = F.chunks ++ (some c0).toList := by
        rw [hcef, hc0]
        simp
      rw [hite]
      have hr : rangesOf (F.chunks ++ (some c0).toList) =
          rangesOf F.chunks ++ [(F.start_line, (splitLines content).length)] := by
        unfold rangesOf
        rw [List.map_append]
        simp [hm0]
      rw [hr]
      exact coversFrom_append _ 1 F.start_line (splitLines content).length hf5 hf1 (by omega)

/-- C4 (counterexample to the claim as stated): a file over the threshold
whose second line is whitespace-only has at least one non-empty line after
cleaning, yet the chunk holding the whitespace-only line is dropped, leaving
line 2 uncovered. -/
theorem chunk_coverage_counterexample :
    (∃ l ∈ splitLines "aaaaaa\n   ", clean_text l ≠ "") ∧
    coversFrom 1 (rangesOf (process_item 5 3 "aaaaaa\n   " "f.py"))
      (splitLines "aaaaaa\n   ").length = false := by
  decide

/-- C4 witness: full coverage for a three-line file split into two partial
chunks. -/
theorem chunk_coverage_witness :
    coversFrom 1 (rangesOf (process_item 5 3 "aaaaaa\nbb\ncc" "f.py"))
      (splitLines "aaaaaa\nbb\ncc").length = true :=
  chunk_coverage 5 3 "aaaaaa\nbb\ncc" "f.py" (Or.inr (by decide))

lemma find?_map_eq (l : List (String × FileEntry)) (g : String × FileEntry → String × FileEntry)
    (p : String × FileEntry → Bool) (hg : ∀ x, p (g x) = p x) :
    (l.map g).find? p = (l.find? p).map g := by
  induction l with
  | nil => rfl
  | cons x xs ih =>
    rw [List.map_cons]
    rcases hx : p x with _ | _
    · rw [List.find?_cons_of_neg _ (by simp [hg, hx]),
        List.find?_cons_of_neg _ (by simp [hx]), ih]
    · rw [List.find?_cons_of_pos _ (by rw [hg]; exact hx), List.find?_cons_of_pos _ hx]
      rfl

lemma lookup_mergeHit_same (seen : List (String × FileEntry)) (fp : String)
    (s e : Nat) (sc : ℚ) :
    lookupEntry (mergeHit seen fp s e sc) fp = some (mergeOne (lookupEntry seen fp) s e sc) := by
  unfold mergeHit lookupEntry
  rcases hfind : seen.find? (fun p => p.1 == fp) with _ | q
  · rw [hfind]
    simp only [Option.isSome_none, Bool.false_eq_true, if_false, Option.map_none']
    rw [List.find?_append, hfind]
    simp [mergeOne]
  · rw [hfind]
    simp only [Option.isSome_some, if_true]
    rw [find?_map_eq _ _ _ (by intro x; by_cases hx1 : x.1 == fp <;> simp [hx1]), hfind]
    have hq : q.1 = fp := by simpa using List.find?_some hfind
    simp [hq, mergeOne]

lemma lookup_mergeHit_other (seen : List (String × FileEntry)) (f fp : String)
    (s e : Nat) (sc : ℚ) (hne : f ≠ fp) :
    lookupEntry (mergeHit seen f s e sc) fp = lookupEntry seen fp := by
  unfold mergeHit lookupEntry
  by_cases hfind : (seen.find? (fun p => p.1 == f)).isSome
  · rw [if_pos hfind]
    rw [find?_map_eq _ _ _ (by intro x; by_cases hx1 : x.1 == f <;> simp [hx1])]
    rcases hq : seen.find? (fun p => p.1 == fp) with _ | q <;> rw [hq]
    · rfl
    · have hq1 : q.1 = fp := by simpa using List.find?_some hq
      have hq2 : q.1 ≠ f := by
        rw [hq1]
        exact fun hh => hne hh.symm
      simp [hq2]
  · rw [if_neg hfind]
    rw [List.find?_append]
    have hsing : List.find? (fun p => p.1 == fp)
        ([(f, { start_line := s, end_line := e, score := sc })] :
          List (String × FileEntry)) = none := by
      rw [List.find?_eq_none]
      intro x hx hpx
      rw [List.mem_singleton] at hx
      subst hx
      exact hne (by simpa using hpx)
    rw [hsing]
    cases seen.find? (fun p => p.1 == fp) <;> rfl

lemma keys_mergeHit (seen : List (String × FileEntry)) (f : String) (s e : Nat) (sc : ℚ) :
    (mergeHit seen f s e sc).map Prod.fst = seen.map Prod.fst ∨
    ((mergeHit seen f s e sc).map Prod.fst = seen.map Prod.fst ++ [f] ∧
      f ∉ seen.map Prod.fst) := by
  unfold mergeHit
  by_cases hfind : (seen.find? (fun p => p.1 == f)).isSome
  · left
    rw [if_pos hfind, List.map_map]
    apply List.map_congr_left
    intro x _
    by_cases hx1 : (x.1 == f) = true <;> simp [Function.comp, hx1]
  · right
    rw [if_neg hfind, List.map_append]
    refine ⟨rfl, ?_⟩
    rw [Option.not_isSome_iff_eq_none, List.find?_eq_none] at hfind
    intro hmem
    obtain ⟨p, hp, hp1⟩ := List.mem_map.mp hmem
    exact hfind p hp (by simp [hp1])

lemma nodup_keys_mergeHit (seen : List (String × FileEntry)) (f : String) (s e : Nat)
    (sc : ℚ) (h : (seen.map Prod.fst).Nodup) :
    ((mergeHit seen f s e sc).map Prod.fst).Nodup := by
  rcases keys_mergeHit seen f s e sc with hk | ⟨hk, hnin⟩
  · rw [hk]
    exact h
  · rw [hk]
    simp [List.nodup_append, h, hnin]

lemma mergeLoop_eq_foldl (chunks : List Chunk) (thr : ℚ) (tk : Nat) :
    ∀ (hits : List (ℚ × Int)) (seen : List (String × FileEntry)),
      mergeLoop chunks thr tk hits seen =
        (processedHits chunks thr tk hits seen).foldl (mergeStep chunks) seen := by
  intro hits
  induction hits with
  | nil =>
    intro seen
    rfl
  | cons h rest ih =>
    intro seen
    obtain ⟨d, idx⟩ := h
    simp only [mergeLoop, processedHits]
    by_cases hs : 1 / (1 + d) < thr
    · rw [if_pos hs, if_pos hs]
      exact ih seen
    · rw [if_neg hs, if_neg hs]
      by_cases hb : (mergeHit seen (chunkAt chunks idx).metadata.file
          (chunkAt chunks idx).metadata.start_line (chunkAt chunks idx).metadata.end_line
          (1 / (1 + d))).length = tk
      · rw [if_pos hb, if_pos hb]
        rfl
      · rw [if_neg hb, if_neg hb, List.foldl_cons]
        exact ih _

lemma processedHits_threshold (chunks : List Chunk) (thr : ℚ) (tk : Nat) :
    ∀ (hits : List (ℚ × Int)) (seen : List (String × FileEntry)) (h : ℚ × Int),
      h ∈ processedHits chunks thr tk hits seen → thr ≤ hitSim h := by
  intro hits
  induction hits with
  | nil =>
    intro seen h hmem
    simp [processedHits] at hmem
  | cons h0 rest ih =>
    intro seen h hmem
    obtain ⟨d, idx⟩ := h0
    simp only [processedHits] at hmem
    by_cases hs : 1 / (1 + d) < thr
    · rw [if_pos hs] at hmem
      exact ih seen h hmem
    · rw [if_neg hs] at hmem
      rcases List.mem_cons.mp hmem with hh | hh
      · subst hh
        exact le_of_not_lt hs
      · by_cases hb : (mergeHit seen (chunkAt chunks idx).metadata.file
            (chunkAt chunks idx).metadata.start_line (chunkAt chunks idx).metadata.end_line
            (1 / (1 + d))).length = tk
        · rw [if_pos hb] at hh
          simp at hh
        · rw [if_neg hb] at hh
          exact ih _ h hh

lemma entryFor_cons (chunks : List Chunk) (acc : Option FileEntry) (h : ℚ × Int)
    (hs : List (ℚ × Int)) :
    entryFor chunks acc (h :: hs) =
      entryFor chunks
        (some (mergeOne acc (hitStart chunks h) (hitEnd chunks h) (hitSim h))) hs := by
  cases acc <;> rfl

lemma lookup_foldl_mergeStep (chunks : List Chunk) :
    ∀ (hs : List (ℚ × Int)) (seen : List (String × FileEntry)) (fp : String),
      lookupEntry (hs.foldl (mergeStep chunks) seen) fp =
        entryFor chunks (lookupEntry seen fp)
          (hs.filter (fun h => hitFile chunks h == fp)) := by
  intro hs
  induction hs with
  | nil =>
    intro seen fp
    show lookupEntry seen fp = entryFor chunks (lookupEntry seen fp) []
    cases lookupEntry seen fp <;> rfl
  | cons h rest ih =>
    intro seen fp
    rw [List.foldl_cons, List.filter_cons]
    by_cases hf : (hitFile chunks h == fp) = true
    · rw [if_pos hf, entryFor_cons, ih]
      congr 1
      have hfp : hitFile chunks h = fp := by simpa using hf
      unfold mergeStep
      rw [hfp]
      exact lookup_mergeHit_same seen fp _ _ _
    · rw [if_neg hf, ih]
      congr 1
      unfold mergeStep
      exact lookup_mergeHit_other seen _ fp _ _ _ (by simpa using hf)

lemma entryFor_some_spec (chunks : List Chunk) :
    ∀ (hs : List (ℚ × Int)) (e0 e : FileEntry),
      entryFor chunks (some e0) hs = some e →
      (e.start_line = e0.start_line ∨ ∃ h ∈ hs, e.start_line = hitStart chunks h) ∧
      e.start_line ≤ e0.start_line ∧
      (∀ h ∈ hs, e.start_line ≤ hitStart chunks h) ∧
      (e.end_line = e0.end_line ∨ ∃ h ∈ hs, e.end_line = hitEnd chunks h) ∧
      e0.end_line ≤ e.end_line ∧
      (∀ h ∈ hs, hitEnd chunks h ≤ e.end_line) ∧
      (e.score = e0.score ∨ ∃ h ∈ hs, e.score = hitSim h) ∧
      e0.score ≤ e.score ∧
      (∀ h ∈ hs, hitSim h ≤ e.score) := by
  intro hs
  induction hs with
  | nil =>
    intro e0 e hent
    have he : e0 = e := by simpa [entryFor] using hent
    subst he
    exact ⟨Or.inl rfl, le_refl _, by intro h0 hh; simp at hh,
           Or.inl rfl, le_refl _, by intro h0 hh; simp at hh,
           Or.inl rfl, le_refl _, by intro h0 hh; simp at hh⟩
  | cons h0 hs ih =>
    intro e0 e hent
    rw [entryFor_cons] at hent
    obtain ⟨ih1, ih2, ih3, ih4, ih5, ih6, ih7, ih8, ih9⟩ := ih _ e hent
    simp only [mergeOne] at ih1 ih2 ih3 ih4 ih5 ih6 ih7 ih8 ih9
    refine ⟨?_, ?_, ?_, ?_, ?_, ?_, ?_, ?_, ?_⟩
    · rcases ih1 with h1 | ⟨hx, hxm, hxe⟩
      · rcases min_choice e0.start_line (hitStart chunks h0) with hm | hm
        · exact Or.inl (by rw [h1, hm])
        · exact Or.inr ⟨h0, List.mem_cons_self _ _, by rw [h1, hm]⟩
      · exact Or.inr ⟨hx, List.mem_cons_of_mem _ hxm, hxe⟩
    · exact le_trans ih2 (min_le_left _ _)
    · intro h1 hm
      rcases List.mem_cons.mp hm with hh | hh
      · subst hh
        exact le_trans ih2 (min_le_right _ _)
      · exact ih3 h1 hh
    · rcases ih4 with h1 | ⟨hx, hxm, hxe⟩
      · rcases max_choice e0.end_line (hitEnd chunks h0) with hm | hm
        · exact Or.inl (by rw [h1, hm])
        · exact Or.inr ⟨h0, List.mem_cons_self _ _, by rw [h1, hm]⟩
      · exact Or.inr ⟨hx, List.mem_cons_of_mem _ hxm, hxe⟩
    · exact le_trans (le_max_left _ _) ih5
    · intro h1 hm
      rcases List.mem_cons.mp hm with hh | hh
      · subst hh
        exact le_trans (le_max_right _ _) ih5
      · exact ih6 h1 hh
    · rcases ih7 with h1 | ⟨hx, hxm, hxe⟩
      · rcases max_choice e0.score (hitSim h0) with hm | hm
        · exact Or.inl (by rw [h1, hm])
        · exact Or.inr ⟨h0, List.mem_cons_self _ _, by rw [h1, hm]⟩
      · exact Or.inr ⟨hx, List.mem_cons_of_mem _ hxm, hxe⟩
    · exact le_trans (le_max_left _ _) ih8
    · intro h1 hm
      rcases List.mem_cons.mp hm with hh | hh
      · subst hh
        exact le_trans (le_max_right _ _) ih8
      · exact ih9 h1 hh

lemma entryFor_none_spec (chunks : List Chunk) (hs : List (ℚ × Int)) (e : FileEntry)
    (hent : entryFor chunks none hs = some e) :
    hs ≠ [] ∧
    (∃ h ∈ hs, e.start_line = hitStart chunks h) ∧
    (∀ h ∈ hs, e.start_line ≤ hitStart chunks h) ∧
    (∃ h ∈ hs, e.end_line = hitEnd chunks h) ∧
    (∀ h ∈ hs, hitEnd chunks h ≤ e.end_line) ∧
    (∃ h ∈ hs, e.score = hitSim h) ∧
    (∀ h ∈ hs, hitSim h ≤ e.score) := by
  cases hs with
  | nil => simp [entryFor] at hent
  | cons h0 hs =>
    rw [entryFor_cons] at hent
    obtain ⟨ih1, ih2, ih3, ih4, ih5, ih6, ih7, ih8, ih9⟩ :=
      entryFor_some_spec chunks hs _ e hent
    simp only [mergeOne] at ih1 ih2 ih3 ih4 ih5 ih6 ih7 ih8 ih9
    refine ⟨List.cons_ne_nil _ _, ?_, ?_, ?_, ?_, ?_, ?_⟩
    · rcases ih1 with h1 | ⟨hx, hxm, hxe⟩
      · exact ⟨h0, List.mem_cons_self _ _, h1⟩
      · exact ⟨hx, List.mem_cons_of_mem _ hxm, hxe⟩
    · intro h1 hm
      rcases List.mem_cons.mp hm with hh | hh
      · subst hh
        exact ih2
      · exact ih3 h1 hh
    · rcases ih4 with h1 | ⟨hx, hxm, hxe⟩
      · exact ⟨h0, List.mem_cons_self _ _, h1⟩
      · exact ⟨hx, List.mem_cons_of_mem _ hxm, hxe⟩
    · intro h1 hm
      rcases List.mem_cons.mp hm with hh | hh
      · subst hh
        exact ih5
      · exact ih6 h1 hh
    · rcases ih7 with h1 | ⟨hx, hxm, hxe⟩
      · exact ⟨h0, List.mem_cons_self _ _, h1⟩
      · exact ⟨hx, List.mem_cons_of_mem _ hxm, hxe⟩
    · intro h1 hm
      rcases List.mem_cons.mp hm with hh | hh
      · subst hh
        exact ih8
      · exact ih9 h1 hh

lemma nodup_keys_foldl (chunks : List Chunk) :
    ∀ (hs : List (ℚ × Int)) (seen : List (String × FileEntry)),
      (seen.map Prod.fst).Nodup →
      ((hs.foldl (mergeStep chunks) seen).map Prod.fst).Nodup := by
  intro hs
  induction hs with
  | nil =>
    intro seen h
    exact h
  | cons h0 hs ih =>
    intro seen h
    rw [List.foldl_cons]
    exact ih _ (nodup_keys_mergeHit _ _ _ _ _ h)

lemma lookup_of_mem_nodup :
    ∀ (seen : List (String × FileEntry)) (p : String × FileEntry),
      (seen.map Prod.fst).Nodup → p ∈ seen → lookupEntry seen p.1 = some p.2 := by
  intro seen
  induction seen with
  | nil =>
    intro p h hp
    simp at hp
  | cons q rest ih =>
    intro p h hp
    rw [List.map_cons] at h
    unfold lookupEntry
    rcases List.mem_cons.mp hp with hq | hp2
    · subst hq
      rw [List.find?_cons_of_pos _ (by simp)]
      rfl
    · have hq1 : ¬ (q.1 == p.1) = true := by
        simp only [beq_iff_eq]
        intro hq2
        have hmem : p.1 ∈ rest.map Prod.fst := List.mem_map_of_mem Prod.fst hp2
        rw [← hq2] at hmem
        exact (List.nodup_cons.mp h).1 hmem
      have hrw : List.find? (fun x => x.1 == p.1) (q :: rest) =
          List.find? (fun x => x.1 == p.1) rest := List.find?_cons_of_neg _ hq1
      rw [hrw]
      exact ih p (List.nodup_cons.mp h).2 hp2

/-- C7: among the neighbours whose similarity `1/(1+d)` clears the threshold
and which the merge loop processes before the `top_k` break, the results of
`retrieve` contain at most one entry per file path, and each returned
location carries the minimum start line, the maximum end line, and the
maximum similarity over that file's processed surviving hits — all of which
score at least the threshold. -/
theorem retrieve_merge_correct {β : Type} (st : RetrievalState β) (store : IndexStore β)
    (distances : List ℚ) (indices : List Int) (top_k : Nat) (thr : ℚ)
    (identifier : String) (cs : List Chunk)
    (hid : st.current_identifier = some identifier)
    (hix : st.index.isSome) (hcs : st.chunks = some cs)
    (results : List CodeLocation)
    (hok : retrieve st store (.ok (distances, indices)) top_k thr = .ok results) :
    (results.map CodeLocation.file_path).Nodup ∧
    ∀ loc ∈ results,
      fileHits cs thr top_k (distances.zip indices) loc.file_path ≠ [] ∧
      (∃ h ∈ fileHits cs thr top_k (distances.zip indices) loc.file_path,
        loc.start_line = hitStart cs h) ∧
      (∀ h ∈ fileHits cs thr top_k (distances.zip indices) loc.file_path,
        loc.start_line ≤ hitStart cs h) ∧
      (∃ h ∈ fileHits cs thr top_k (distances.zip indices) loc.file_path,
        loc.end_line = hitEnd cs h) ∧
      (∀ h ∈ fileHits cs thr top_k (distances.zip indices) loc.file_path,
        hitEnd cs h ≤ loc.end_line) ∧
      (∃ h ∈ fileHits cs thr top_k (distances.zip indices) loc.file_path,
        loc.score = hitSim h) ∧
      (∀ h ∈ fileHits cs thr top_k (distances.zip indices) loc.file_path,
        hitSim h ≤ loc.score) ∧
      thr ≤ loc.score := by
  have hens := ensure_loaded_noop st store identifier hid hix (by rw [hcs]; rfl)
  have hres : results = (mergeLoop cs thr top_k (distances.zip indices) []).map
      (fun p => ({ file_path := p.1, start_line := p.2.start_line,
                   end_line := p.2.end_line, score := p.2.score } : CodeLocation)) := by
    have h2 := hok
    simp only [retrieve, hid, hens, mergeResults, hcs, Option.getD_some,
      Except.ok.injEq] at h2
    exact h2.symm
  have hnod : ((mergeLoop cs thr top_k (distances.zip indices) []).map Prod.fst).Nodup := by
    rw [mergeLoop_eq_foldl]
    exact nodup_keys_foldl cs _ [] (by simp)
  constructor
  · rw [hres, List.map_map]
    exact hnod
  · intro loc hloc
    rw [hres] at hloc
    obtain ⟨p, hp, hploc⟩ := List.mem_map.mp hloc
    have hlook : lookupEntry (mergeLoop cs thr top_k (distances.zip indices) []) p.1 =
        some p.2 := lookup_of_mem_nodup _ p hnod hp
    rw [mergeLoop_eq_foldl, lookup_foldl_mergeStep] at hlook
    obtain ⟨hne, hs1, hs2, he1, he2, hq1, hq2⟩ := entryFor_none_spec cs _ _ hlook
    subst hploc
    refine ⟨hne, hs1, hs2, he1, he2, hq1, hq2, ?_⟩
    obtain ⟨h1, hh1, hh1e⟩ := hq1
    have hmem : h1 ∈ processedHits cs thr top_k (distances.zip indices) [] :=
      List.mem_of_mem_filter hh1
    have hthr := processedHits_threshold cs thr top_k (distances.zip indices) [] h1 hmem
    show thr ≤ p.2.score
    rw [hh1e]
    exact hthr

/-- C7 witness: a loaded state queried with an empty neighbour list. -/
theorem retrieve_merge_correct_witness :
    (([] : List CodeLocation).map CodeLocation.file_path).Nodup ∧
    ∀ loc ∈ ([] : List CodeLocation),
      fileHits [cDemoA] 0 5 (List.zip ([] : List ℚ) ([] : List Int)) loc.file_path ≠ [] ∧
      (∃ h ∈ fileHits [cDemoA] 0 5 (List.zip ([] : List ℚ) ([] : List Int)) loc.file_path,
        loc.start_line = hitStart [cDemoA] h) ∧
      (∀ h ∈ fileHits [cDemoA] 0 5 (List.zip ([] : List ℚ) ([] : List Int)) loc.file_path,
        loc.start_line ≤ hitStart [cDemoA] h) ∧
      (∃ h ∈ fileHits [cDemoA] 0 5 (List.zip ([] : List ℚ) ([] : List Int)) loc.file_path,
        loc.end_line = hitEnd [cDemoA] h) ∧
      (∀ h ∈ fileHits [cDemoA] 0 5 (List.zip ([] : List ℚ) ([] : List Int)) loc.file_path,
        hitEnd [cDemoA] h ≤ loc.end_line) ∧
      (∃ h ∈ fileHits [cDemoA] 0 5 (List.zip ([] : List ℚ) ([] : List Int)) loc.file_path,
        loc.score = hitSim h) ∧
      (∀ h ∈ fileHits [cDemoA] 0 5 (List.zip ([] : List ℚ) ([] : List Int)) loc.file_path,
        hitSim h ≤ loc.score) ∧
      (0 : ℚ) ≤ loc.score :=
  retrieve_merge_correct stSavedDemo demoStore1 [] [] 5 0 "repo" [cDemoA] rfl rfl rfl [] rfl

/-- C2: for every successful build, the backing structure is selected by the
policy on the number `n` of successfully produced embeddings: the exact
`IndexFlatL2` holding all vectors when `n < min 100 (n / 2)`, and otherwise a
clustered `IndexIVFFlat` with `min 100 (n / 2)` clusters over all vectors. -/
theorem build_index_structure_policy {β : Type} (tokenizeOk : List String → Bool)
    (encode : String → Option β) (chunks : List Chunk) (ix : FaissIndex β)
    (hok : build_index tokenizeOk encode chunks = .ok ix) :
    ((buildEmbeddings tokenizeOk encode (chunks.map chunkText)).length <
        min 100 ((buildEmbeddings tokenizeOk encode (chunks.map chunkText)).length / 2) →
      ix = .flatL2 (buildEmbeddings tokenizeOk encode (chunks.map chunkText))) ∧
    (¬ (buildEmbeddings tokenizeOk encode (chunks.map chunkText)).length <
        min 100 ((buildEmbeddings tokenizeOk encode (chunks.map chunkText)).length / 2) →
      ix = .ivfFlat
        (min 100 ((buildEmbeddings tokenizeOk encode (chunks.map chunkText)).length / 2))
        (buildEmbeddings tokenizeOk encode (chunks.map chunkText))) := by
  unfold build_index at hok
  set embeddings := buildEmbeddings tokenizeOk encode (chunks.map chunkText) with hemb
  by_cases he : embeddings.isEmpty
  · rw [if_pos he] at hok
    exact absurd hok (by simp)
  · rw [if_neg he] at hok
    by_cases hn : embeddings.length < min 100 (embeddings.length / 2)
    · rw [if_pos hn] at hok
      refine ⟨fun _ => ?_, fun h => absurd hn h⟩
      exact (Except.ok.injEq _ _).mp hok.symm ▸ rfl
    · rw [if_neg hn] at hok
      refine ⟨fun h => absurd h hn, fun _ => ?_⟩
      exact (Except.ok.injEq _ _).mp hok.symm ▸ rfl

/-- C2 witness: a build over two chunks, both embedding successfully. -/
theorem build_index_structure_policy_witness :
    ((2 : Nat) < min 100 (2 / 2) →
      (FaissIndex.ivfFlat 1 [7, 7] : FaissIndex Nat) = .flatL2 [7, 7]) ∧
    (¬ (2 : Nat) < min 100 (2 / 2) →
      (FaissIndex.ivfFlat 1 [7, 7] : FaissIndex Nat) = .ivfFlat (min 100 (2 / 2)) [7, 7]) :=
  build_index_structure_policy (fun _ => true) demoEncode [cDemoA, cDemoB]
    (.ivfFlat 1 [7, 7]) rfl

/-- C3: for every `n ≥ 1` the guard `n < min(100, n // 2)` of the exact-index
fallback in `_build_index` is false, so the `IndexFlatL2` branch is
unreachable and every successful build yields the clustered IVF structure. -/
theorem build_index_flat_branch_unreachable {β : Type} (tokenizeOk : List String → Bool)
    (encode : String → Option β) (chunks : List Chunk) (ix : FaissIndex β)
    (hok : build_index tokenizeOk encode chunks = .ok ix) :
    (∀ n : Nat, 1 ≤ n → ¬ n < min 100 (n / 2)) ∧
    ∃ vectors, ix = .ivfFlat (min 100 (vectors.length / 2)) vectors := by
  refine ⟨fun n hn => by omega, ?_⟩
  unfold build_index at hok
  set embeddings := buildEmbeddings tokenizeOk encode (chunks.map chunkText) with hemb
  by_cases he : embeddings.isEmpty
  · rw [if_pos he] at hok
    exact absurd hok (by simp)
  · rw [if_neg he] at hok
    have hne : embeddings ≠ [] := fun h => he (h ▸ rfl)
    have hlen : 1 ≤ embeddings.length := List.length_pos.mpr hne
    rw [if_neg (by omega)] at hok
    exact ⟨embeddings, ((Except.ok.injEq _ _).mp hok).symm⟩

/-- C3 witness: a concrete successful build lands in the IVF branch. -/
theorem build_index_flat_branch_unreachable_witness :
    (∀ n : Nat, 1 ≤ n → ¬ n < min 100 (n / 2)) ∧
    ∃ vectors, (FaissIndex.ivfFlat 1 [7, 7] : FaissIndex Nat) =
      .ivfFlat (min 100 (vectors.length / 2)) vectors :=
  build_index_flat_branch_unreachable (fun _ => true) demoEncode [cDemoA, cDemoB]
    (.ivfFlat 1 [7, 7]) rfl

/-- C1 (code bug, evaluated at the failing input): building over the chunks
`[cDemoA, cDemoB]` with a model that fails on `cDemoA`'s text proceeds with
the one successful embedding, but the stored vector at ordinal position 0
was produced from `cDemoB`'s text, while position 0 of the persisted
metadata list (`self.chunks`) — the one `retrieve` joins a search hit at
index 0 to via `self.chunks[idx]` — holds `cDemoA`, whose text produced no
vector at all. -/
theorem build_misalignment_on_failed_embedding :
    initWithChunks (fun _ => true) failFirstEncode [cDemoA, cDemoB] =
      .ok { index := some (.ivfFlat 0 [7]), chunks := some [cDemoA, cDemoB],
            current_identifier := none } ∧
    failFirstEncode (chunkText cDemoA) = none ∧
    failFirstEncode (chunkText cDemoB) = some 7 ∧
    chunkAt [cDemoA, cDemoB] 0 = cDemoA :=
  ⟨rfl, rfl, rfl, rfl⟩

/-- C9: `load_index` fails with the distinct `FileNotFoundError` iff at least
one of the two persisted artifacts is absent for the identifier; when both
are present it reconstructs the backing structure and the metadata list and
records the identifier. -/
theorem load_index_not_found_iff {β : Type} (store : IndexStore β) (identifier : String) :
    (load_index store identifier = .error (.fileNotFound identifier) ↔
      (store.indexFiles identifier = none ∨ store.chunkFiles identifier = none)) ∧
    (∀ ix cs, store.indexFiles identifier = some ix → store.chunkFiles identifier = some cs →
      load_index store identifier =
        .ok { index := some ix, chunks := some cs, current_identifier := some identifier }) := by
  constructor
  · unfold load_index
    rcases h1 : store.indexFiles identifier with _ | ix <;>
      rcases h2 : store.chunkFiles identifier with _ | cs <;> simp
  · intro ix cs h1 h2
    unfold load_index
    rw [h1, h2]

/-- C9 witness: loading an identifier whose two artifacts are both present. -/
theorem load_index_not_found_iff_witness :
    load_index demoStore1 "repo" =
      .ok { index := some (.ivfFlat 0 [7]), chunks := some [cDemoA],
            current_identifier := some "repo" } :=
  (load_index_not_found_iff demoStore1 "repo").2 _ _ rfl rfl

/-- C10 (counterexample): with the index loaded, an unexpected failure in the
search phase is caught by `retrieve`'s `except` clause and converted into
the normal successful return `[]` instead of being surfaced as an error. -/
theorem retrieve_search_failure_counterexample :
    retrieve stSavedDemo demoStore1 (.error "faiss raised") 5 0 = .ok [] := rfl

/-- C10 (amended): an unexpected failure in the search phase after the index
is loaded is logged and converted into the normal successful return `[]`
(indistinguishable from a no-match result); only the pre-search checks
surface errors to the caller of `retrieve`. -/
theorem retrieve_search_failure_returns_empty {β : Type} (st : RetrievalState β)
    (store : IndexStore β) (msg : String) (top_k : Nat) (thr : ℚ) (identifier : String)
    (hid : st.current_identifier = some identifier)
    (hix : st.index.isSome) (hcs : st.chunks.isSome) :
    retrieve st store (.error msg) top_k thr = .ok [] := by
  simp [retrieve, hid, ensure_loaded_noop st store identifier hid hix hcs]

/-- C10 witness: the amended behaviour at a concrete loaded state. -/
theorem retrieve_search_failure_returns_empty_witness :
    retrieve stSavedDemo demoStore1 (.error "boom") 5 0 = .ok [] :=
  retrieve_search_failure_returns_empty stSavedDemo demoStore1 "boom" 5 0 "repo" rfl rfl rfl

/-- C8 (counterexample): the freshly built, unsaved handle has no
`current_identifier`, so querying it raises, while the same query after
`save` + `load` returns a normal result — the two are not identical. -/
theorem roundtrip_vs_fresh_counterexample :
    initWithChunks (fun _ => true) demoEncode [cDemoA] = .ok stBuiltDemo ∧
    retrieve stBuiltDemo demoStore0 (.ok ([], [])) 5 0 = .error .noIndexLoaded ∧
    save_index stBuiltDemo demoStore0 "repo" = .ok (demoStore1, stSavedDemo) ∧
    load_index demoStore1 "repo" = .ok stSavedDemo ∧
    retrieve stSavedDemo demoStore1 (.ok ([], [])) 5 0 = .ok [] :=
  ⟨rfl, rfl, rfl, rfl, rfl⟩

/-- C8 (amended): saving a built state under an identifier and then loading
that identifier yields a state whose `retrieve` results are identical to
those of the post-save in-memory state, for every search outcome, `top_k`
and similarity threshold. -/
theorem save_load_roundtrip {β : Type} (st : RetrievalState β) (store store2 : IndexStore β)
    (stSaved stLoaded : RetrievalState β) (identifier : String)
    (hsave : save_index st store identifier = .ok (store2, stSaved))
    (hload : load_index store2 identifier = .ok stLoaded)
    (search : Except String (List ℚ × List Int)) (top_k : Nat) (thr : ℚ) :
    retrieve stLoaded store2 search top_k thr = retrieve stSaved store2 search top_k thr := by
  unfold save_index at hsave
  rcases hix : st.index with _ | ix <;> rw [hix] at hsave
  · cases hsave
  rcases hcs : st.chunks with _ | cs <;> rw [hcs] at hsave
  · cases hsave
  simp only [Except.ok.injEq, Prod.mk.injEq] at hsave
  obtain ⟨hstore, hsaved⟩ := hsave
  subst hstore
  subst hsaved
  unfold load_index at hload
  simp only [eq_self_iff_true, if_true] at hload
  simp only [Except.ok.injEq] at hload
  subst hload
  rfl

/-- C8 witness: the amended round trip at a concrete store and state. -/
theorem save_load_roundtrip_witness :
    retrieve stSavedDemo demoStore1 (.ok ([], [])) 5 0 =
      retrieve stSavedDemo demoStore1 (.ok ([], [])) 5 0 :=
  save_load_roundtrip stBuiltDemo demoStore0 demoStore1 stSavedDemo stSavedDemo "repo"
    rfl rfl (.ok ([], [])) 5 0

end Semvec
